import Mathlib

/-!
Shallow embedding of the `z80::memory<BEGIN, END>` class of this repository
(`src/Z80-Emulator/main.cpp`, which contains `main.cpp` followed by the
`memory.h` it includes), together with theorems settling the spec claims.

Modelling conventions:
* `address_t` is a 16-bit unsigned integer; address values are `Nat`s `< 65536`
  and compound assignments on `address_t` wrap modulo `2^16` (`w16`).
* `size_t` is a 64-bit unsigned integer; the expression `(size_t)addr - BEGIN`
  is `szsub`, i.e. subtraction modulo `2^64`.
* `int` subtraction of two `address_t` values is exact (integer promotion), and
  comparing that `int` against a `size_t` converts it to `size_t` (`intToSize`),
  exactly as the usual arithmetic conversions do.
* `std::array::at` out-of-bounds throws `std::out_of_range`, modelled as
  `MemErr.outOfRange`; the explicit `throw std::runtime_error(... overflow ...)`
  sites are `MemErr.overflow`, and the file errors follow the spec taxonomy
  (`notFound`, `sizeMismatch`, `alreadyExists`).
* `std::cout` output is modelled as the list of bytes written (`List ℕ`);
  `char` is signed, so for a byte `b` the test
  `(c == 127) || (c >= 0) && (c < 32)` holds iff `b < 32 ∨ b = 127`
  (bytes `≥ 128` become negative `char`s and are printed verbatim).
* the external filesystem is an association list from path names to byte lists.
-/

namespace Z80

/-- `2^16`, the number of `address_t` values. -/
def W16 : ℕ := 65536

/-- `2^64`, the number of `size_t` values. -/
def W64 : ℕ := 18446744073709551616

/-- Wrap to a 16-bit `address_t` value. -/
def w16 (n : ℕ) : ℕ := n % W16

/-- `size_t` subtraction `a - b` (modulo `2^64`), for `a b < 2^64`. -/
def szsub (a b : ℕ) : ℕ := (a + W64 - b) % W64

/-- Conversion of a C++ `int` to `size_t` (reduction modulo `2^64`),
as performed by the usual arithmetic conversions when an `int` is compared
with a `size_t`. -/
def intToSize (z : ℤ) : ℕ := (z % (W64 : ℤ)).toNat

/-- Error taxonomy of the operations: `std::out_of_range` from
`std::array::at`, the explicit "memory overflow" throws, and the three
file errors. -/
inductive MemErr where
  | outOfRange
  | overflow
  | notFound
  | sizeMismatch
  | alreadyExists
deriving DecidableEq, Repr

instance {ε α : Type} [DecidableEq ε] [DecidableEq α] : DecidableEq (Except ε α) :=
  fun a b =>
    match a, b with
    | .ok x, .ok y => decidable_of_iff (x = y) (by simp)
    | .error x, .error y => decidable_of_iff (x = y) (by simp)
    | .ok _, .error _ => isFalse (by simp)
    | .error _, .ok _ => isFalse (by simp)

/-- The state of one `z80::memory<BEGIN, END>` instance: the template
parameters and the owned byte array (`bytes` has `END - BEGIN + 1` cells). -/
structure memory where
  BEGIN : ℕ
  END : ℕ
  bytes : List ℕ
deriving DecidableEq, Repr

namespace memory

/-- `size() = END - BEGIN + 1`. -/
def size (m : memory) : ℕ := m.END - m.BEGIN + 1

/-- `column_count`, set once at construction to
`(size() < PARAGRAPH) ? size() : PARAGRAPH` with `PARAGRAPH = 16`;
every constructor computes it this way and it is never reassigned,
so it is modelled as a derived quantity. -/
def column_count (m : memory) : ℕ := if m.size < 16 then m.size else 16

/-- Well-formedness of an instance: the template parameters describe a
16-bit address window and the array holds `size` bytes. -/
def wf (m : memory) : Prop :=
  m.BEGIN ≤ m.END ∧ m.END < W16 ∧ m.bytes.length = m.size ∧ ∀ b ∈ m.bytes, b < 256

instance (m : memory) : Decidable m.wf := by
  unfold wf
  infer_instance

/-- `byte_t operator[](address_t addr) const`:
`return bytes->at((size_t)addr - BEGIN)`. -/
def read (m : memory) (addr : ℕ) : Except MemErr ℕ :=
  if h : szsub addr m.BEGIN < m.bytes.length then
    .ok (m.bytes.get ⟨szsub addr m.BEGIN, h⟩)
  else .error .outOfRange

/-- `byte_t& operator[](address_t addr)` used as the mutating accessor:
assignment through `bytes->at((size_t)addr - BEGIN)`. -/
def write (m : memory) (addr v : ℕ) : Except MemErr memory :=
  if szsub addr m.BEGIN < m.bytes.length then
    .ok { m with bytes := m.bytes.set (szsub addr m.BEGIN) v }
  else .error .outOfRange

end memory

/-- For `b ≤ a` with `a - b` below `2^64`, `size_t` subtraction is exact. -/
theorem szsub_of_le {a b : ℕ} (hb : b ≤ a) (ha : a - b < W64) :
    szsub a b = a - b := by
  simp only [szsub, W64] at *
  omega

/-- For `a < b < 2^64`, `(size_t)a - b` wraps to `2^64 - (b - a)`. -/
theorem szsub_of_lt {a b : ℕ} (hab : a < b) (hb : b < W64) :
    szsub a b = W64 - (b - a) := by
  simp only [szsub, W64] at *
  omega

section ReadWrite

/-- In-range offset arithmetic: for a well-formed block and
`BEGIN ≤ a ≤ END`, the `size_t` offset is exactly `a - BEGIN` and it
indexes into the array. -/
theorem offset_in_range {m : memory} {a : ℕ} (hlen : m.bytes.length = m.size)
    (hew : m.END < W16) (h1 : m.BEGIN ≤ a) (h2 : a ≤ m.END) :
    szsub a m.BEGIN = a - m.BEGIN ∧ a - m.BEGIN < m.bytes.length := by
  have hoff : szsub a m.BEGIN = a - m.BEGIN := by
    apply szsub_of_le h1
    simp only [W16, W64] at *
    omega
  refine ⟨hoff, ?_⟩
  rw [hlen]
  simp only [memory.size, W16] at *
  omega

/-- **C1.** For every in-range address `a` and byte `v`, `write(a, v)`
succeeds and a subsequent `read(a)` on the resulting state returns `v`. -/
theorem write_then_read (m : memory) (a v : ℕ) (hwf : m.wf)
    (h1 : m.BEGIN ≤ a) (h2 : a ≤ m.END) :
    (m.write a v).bind (fun m2 => m2.read a) = Except.ok v := by
  obtain ⟨hbe, hew, hlen, _⟩ := hwf
  obtain ⟨hoff, hlt⟩ := offset_in_range hlen hew h1 h2
  have hlt2 : a - m.BEGIN < (m.bytes.set (a - m.BEGIN) v).length := by
    simpa using hlt
  simp only [memory.write, memory.read, hoff, if_pos hlt]
  show ((Except.ok { m with bytes := m.bytes.set (a - m.BEGIN) v } :
      Except MemErr memory).bind (fun m2 => m2.read a)) = Except.ok v
  simp only [Except.bind, memory.read, hoff, dif_pos hlt2]
  simp [List.getElem_set_self hlt2]

/-- Witness for C1 at a concrete instance. -/
theorem write_then_read_witness :
    ((memory.mk 4096 4099 [1, 2, 3, 4]).write 4097 171).bind
      (fun m2 => m2.read 4097) = Except.ok 171 :=
  write_then_read (memory.mk 4096 4099 [1, 2, 3, 4]) 4097 171
    (by decide) (by decide) (by decide)

/-- **C2.** For every address outside `[BEGIN, END]`, both `read` and
`write` fail with `OutOfRange` (the `std::out_of_range` thrown by
`bytes->at`), for every value `v`. -/
theorem read_write_out_of_range (m : memory) (a v : ℕ) (hwf : m.wf)
    (ha : a < W16) (hout : a < m.BEGIN ∨ m.END < a) :
    m.read a = Except.error MemErr.outOfRange ∧
    m.write a v = Except.error MemErr.outOfRange := by
  obtain ⟨hbe, hew, hlen, _⟩ := hwf
  have hsz : m.bytes.length = m.END - m.BEGIN + 1 := hlen
  have hge : ¬ szsub a m.BEGIN < m.bytes.length := by
    rcases hout with h | h
    · have hw : szsub a m.BEGIN = W64 - (m.BEGIN - a) := by
        apply szsub_of_lt h
        simp only [W16, W64] at *
        omega
      rw [hw]
      simp only [W16, W64] at *
      omega
    · have hw : szsub a m.BEGIN = a - m.BEGIN := by
        apply szsub_of_le (by omega)
        simp only [W16, W64] at *
        omega
      rw [hw]
      simp only [W16, W64] at *
      omega
  constructor
  · simp only [memory.read, dif_neg hge]
  · simp only [memory.write, if_neg hge]

/-- Witness for C2 at a concrete instance (one address below the window,
checked through the theorem; the block is `[0x1000, 0x1003]`). -/
theorem read_write_out_of_range_witness :
    (memory.mk 4096 4099 [1, 2, 3, 4]).read 4095 = Except.error MemErr.outOfRange ∧
    (memory.mk 4096 4099 [1, 2, 3, 4]).write 4095 7 = Except.error MemErr.outOfRange :=
  read_write_out_of_range (memory.mk 4096 4099 [1, 2, 3, 4]) 4095 7
    (by decide) (by decide) (Or.inl (by decide))

/-- **C10.** `write` at an in-range address `a` changes only the byte at
`a`: every other in-range address reads unchanged, and `BEGIN`, `END`,
`size` and the dump column count are unchanged. -/
theorem write_frame (m : memory) (a v : ℕ) (hwf : m.wf)
    (h1 : m.BEGIN ≤ a) (h2 : a ≤ m.END) (m2 : memory)
    (hw : m.write a v = Except.ok m2) :
    (∀ a2, m.BEGIN ≤ a2 → a2 ≤ m.END → a2 ≠ a → m2.read a2 = m.read a2) ∧
    m2.BEGIN = m.BEGIN ∧ m2.END = m.END ∧ m2.size = m.size ∧
    m2.column_count = m.column_count := by
  obtain ⟨hbe, hew, hlen, _⟩ := hwf
  obtain ⟨hoff, hlt⟩ := offset_in_range hlen hew h1 h2
  rw [memory.write, hoff, if_pos hlt] at hw
  have hm2 : m2 = { m with bytes := m.bytes.set (a - m.BEGIN) v } := by
    cases hw
    rfl
  subst hm2
  refine ⟨?_, rfl, rfl, rfl, rfl⟩
  intro a2 ha1 ha2 hne
  obtain ⟨hoff2, hlt2⟩ := offset_in_range hlen hew ha1 ha2
  have hlt2' : a2 - m.BEGIN < (m.bytes.set (a - m.BEGIN) v).length := by
    simpa using hlt2
  have hnei : a - m.BEGIN ≠ a2 - m.BEGIN := by omega
  simp only [memory.read, hoff2, dif_pos hlt2', dif_pos hlt2]
  simp [List.getElem_set_of_ne hnei]

/-- Witness for C10: writing `9` at `0x1001` leaves the byte at `0x1002`
unchanged and leaves the window metadata unchanged. -/
theorem write_frame_witness :
    (memory.mk 4096 4099 [1, 9, 3, 4]).read 4098 =
      (memory.mk 4096 4099 [1, 2, 3, 4]).read 4098 ∧
    (memory.mk 4096 4099 [1, 9, 3, 4]).column_count =
      (memory.mk 4096 4099 [1, 2, 3, 4]).column_count := by
  have h := write_frame (memory.mk 4096 4099 [1, 2, 3, 4]) 4097 9
    (by decide) (by decide) (by decide) (memory.mk 4096 4099 [1, 9, 3, 4]) (by decide)
  exact ⟨h.1 4098 (by decide) (by decide) (by decide), h.2.2.2.2⟩

end ReadWrite

section Fill

/-- The loop of `memory::fill` after the compound assignments: starting at
`i = b1` it runs while `i < e1`, assigning `bytes->at((size_t)b1 + i) = v`.
The iteration count `e1 - b1` is made structural (`cnt`); `i` carries the
loop variable, which never wraps since `i < e1 < 2^16`. -/
def fillLoop (v b1 : ℕ) : (cnt : ℕ) → (i : ℕ) → List ℕ → Except MemErr (List ℕ)
  | 0, _, bs => .ok bs
  | cnt + 1, i, bs =>
    if b1 + i < bs.length then fillLoop v b1 cnt (i + 1) (bs.set (b1 + i) v)
    else .error .outOfRange

/-- `void fill(byte_t b, address_t begin = BEGIN, address_t end = END + 1)`:
the code first mutates its parameters (`end -= begin; begin -= BEGIN;`,
both wrapping as `address_t`), then checks `end - begin` — the mutated
values — against `size()` (an `int` compared with a `size_t`), and then
runs `for (auto i{begin}; i < end; ++i) bytes->at((size_t)begin + i) = b;`. -/
def memory.fill (m : memory) (v b e : ℕ) : Except MemErr memory :=
  let e1 := w16 (e + W16 - b)
  let b1 := w16 (b + W16 - m.BEGIN)
  if intToSize ((e1 : ℤ) - (b1 : ℤ)) > m.size then .error .overflow
  else (fillLoop v b1 (e1 - b1) b1 m.bytes).map (fun bs => { m with bytes := bs })

/-- `fillLoop` can only fail with `OutOfRange` (the `std::array::at` throw). -/
theorem fillLoop_error {v b1 : ℕ} :
    ∀ {cnt i : ℕ} {bs : List ℕ} {err : MemErr},
      fillLoop v b1 cnt i bs = .error err → err = .outOfRange := by
  intro cnt
  induction cnt with
  | zero => intro i bs err h; simp [fillLoop] at h
  | succ n ih =>
    intro i bs err h
    rw [fillLoop] at h
    split at h
    · exact ih h
    · cases h
      rfl

/-- Characterization of the fill loop in the `b1 = 0` case (which arises
exactly when the caller passes `begin = BEGIN`): all offsets in
`[i, i + cnt)` are set to `v` and all others are unchanged. -/
theorem fillLoop_zero_ok (v : ℕ) :
    ∀ (cnt i : ℕ) (bs : List ℕ), i + cnt ≤ bs.length →
      ∃ bs2, fillLoop v 0 cnt i bs = .ok bs2 ∧ bs2.length = bs.length ∧
        ∀ j, bs2.getD j 0 = if i ≤ j ∧ j < i + cnt then v else bs.getD j 0 := by
  intro cnt
  induction cnt with
  | zero =>
    intro i bs _
    refine ⟨bs, rfl, rfl, ?_⟩
    intro j
    rw [if_neg (by omega)]
  | succ n ih =>
    intro i bs hlen
    have hi : 0 + i < bs.length := by omega
    obtain ⟨bs2, hloop, hlen2, hget⟩ := ih (i + 1) (bs.set (0 + i) v) (by simpa using by omega)
    refine ⟨bs2, ?_, by simpa using hlen2, ?_⟩
    · rw [fillLoop, if_pos hi]
      exact hloop
    · intro j
      rw [hget j]
      by_cases hij : i = j
      · subst hij
        rw [if_neg (by omega), if_pos (by omega)]
        have hi2 : i < bs.length := by omega
        simp [List.getD_eq_getElem?_getD, List.getElem?_set, hi2]
      · by_cases hr : i + 1 ≤ j ∧ j < i + 1 + n
        · rw [if_pos hr, if_pos (by omega)]
        · rw [if_neg hr, if_neg (by omega)]
          simp [List.getD_eq_getElem?_getD, List.getElem?_set, hij]

/-- `read` in terms of `getD`, once the offset arithmetic is settled. -/
theorem read_ok_of_getD {m : memory} {a w : ℕ}
    (hoff : szsub a m.BEGIN = a - m.BEGIN)
    (hlt : a - m.BEGIN < m.bytes.length)
    (hg : m.bytes.getD (a - m.BEGIN) 0 = w) :
    m.read a = Except.ok w := by
  rw [List.getD_eq_getElem?_getD, List.getElem?_eq_getElem hlt, Option.getD_some] at hg
  simp only [memory.read, hoff]
  rw [dif_pos hlt]
  simp only [List.get_eq_getElem]
  exact congrArg (fun x => (Except.ok x : Except MemErr ℕ)) hg

/-- The concrete block of the C4/C3 counterexamples: `BEGIN = 0`,
`END = 15`, all 16 bytes `0`. -/
def fillCexM : memory := memory.mk 0 15 (List.replicate 16 0)

/-- **C4, counterexample.** On a 16-byte block `[0, 15]` of zeros, the
valid half-open span `[4, 8)` (length `4 ≤ size`, within bounds) is *not*
filled: `fill(7, 4, 8)` succeeds but returns the block unchanged — the
byte at address `4` still reads `0`, not `7`. (After `end -= begin;
begin -= BEGIN;` the loop `for (i = begin; i < end; ++i)` compares the
offset `4` against the span length `4` and runs zero times.) -/
theorem fill_span_not_filled :
    fillCexM.wf ∧ fillCexM.BEGIN ≤ 4 ∧ 8 ≤ fillCexM.END + 1 ∧
    8 - 4 ≤ fillCexM.size ∧
    fillCexM.fill 7 4 8 = Except.ok fillCexM ∧
    fillCexM.read 4 = Except.ok 0 := by decide

/-- **C4, amended.** `fill(v, begin, end)` behaves as the claim states
when `begin = begin_address`: for `end ≤ end_address + 1` it succeeds,
sets every byte at addresses in `[begin_address, end)` to `v` (half-open:
the byte at `end` is not written), and leaves the bytes at `[end,
end_address]` unchanged. (For `begin > begin_address` the loop instead
runs `i` from the begin offset up to the span length, writing offsets
`[2·(begin−BEGIN), (begin−BEGIN)+(end−begin))`, so the span itself is in
general not filled — see the counterexample.) -/
theorem fill_from_begin (m : memory) (v e : ℕ) (hwf : m.wf)
    (h1 : m.BEGIN ≤ e) (h2 : e ≤ m.END + 1) (he : e < W16) :
    ∃ m2, m.fill v m.BEGIN e = Except.ok m2 ∧
      (∀ a, m.BEGIN ≤ a → a < e → m2.read a = Except.ok v) ∧
      (∀ a, e ≤ a → a ≤ m.END → m2.read a = m.read a) := by
  obtain ⟨hbe, hew, hlen, _⟩ := hwf
  have hsz : m.bytes.length = m.END - m.BEGIN + 1 := hlen
  have he1 : w16 (e + W16 - m.BEGIN) = e - m.BEGIN := by
    simp only [w16, W16] at *
    omega
  have hb1 : w16 (m.BEGIN + W16 - m.BEGIN) = 0 := by
    simp only [w16, W16]
    omega
  have hspan : e - m.BEGIN ≤ m.bytes.length := by
    simp only [W16] at *
    omega
  obtain ⟨bs2, hloop, hlen2, hget⟩ := fillLoop_zero_ok v (e - m.BEGIN) 0 m.bytes
    (by omega)
  have hchk : ¬ intToSize (((e - m.BEGIN : ℕ) : ℤ) - ((0 : ℕ) : ℤ)) > m.size := by
    simp only [intToSize, W64]
    rw [Int.emod_eq_of_lt (by omega) (by simp only [W16] at *; omega)]
    simp only [memory.size, W16] at *
    omega
  refine ⟨{ m with bytes := bs2 }, ?_, ?_, ?_⟩
  · unfold memory.fill
    simp only [he1, hb1, hchk, if_neg, Nat.sub_zero]
    rw [hloop]
    rfl
  · intro a ha1 ha2
    have hoff : szsub a m.BEGIN = a - m.BEGIN := by
      apply szsub_of_le ha1
      simp only [W16, W64] at *
      omega
    have hlt : a - m.BEGIN < bs2.length := by
      rw [hlen2]
      omega
    have hv : bs2.getD (a - m.BEGIN) 0 = v := by
      rw [hget, if_pos (by omega)]
    exact read_ok_of_getD (m := { m with bytes := bs2 }) hoff hlt hv
  · intro a ha1 ha2
    have hoff : szsub a m.BEGIN = a - m.BEGIN := by
      apply szsub_of_le (by omega)
      simp only [W16, W64] at *
      omega
    have hlt : a - m.BEGIN < m.bytes.length := by omega
    have hlt2 : a - m.BEGIN < bs2.length := by omega
    have hu : bs2.getD (a - m.BEGIN) 0 = m.bytes.getD (a - m.BEGIN) 0 := by
      rw [hget, if_neg (by omega)]
    rw [read_ok_of_getD (m := { m with bytes := bs2 }) hoff hlt2 hu,
      read_ok_of_getD hoff hlt rfl]

/-- Witness for the amended C4: filling `[0, 8)` with `7` on the zero
block sets address `3` to `7` and leaves address `8` at `0`. -/
theorem fill_from_begin_witness :
    (fillCexM.fill 7 0 8).bind (fun m2 => m2.read 3) = Except.ok 7 ∧
    (fillCexM.fill 7 0 8).bind (fun m2 => m2.read 8) = Except.ok 0 := by
  obtain ⟨m2, hfill, hset, hkeep⟩ := fill_from_begin fillCexM 7 8
    (by decide) (by decide) (by decide) (by decide)
  have h0 : fillCexM.BEGIN = 0 := rfl
  rw [h0] at hfill
  rw [hfill]
  constructor
  · show m2.read 3 = Except.ok 7
    exact hset 3 (by decide) (by decide)
  · show m2.read 8 = Except.ok 0
    rw [hkeep 8 (by decide) (by decide)]
    decide

end Fill

section FileOps

/-- The external filesystem: an association list from path names to file
contents (byte lists). -/
abbrev FS := List (String × List ℕ)

/-- Path lookup (`std::filesystem::exists` + reading the content). -/
def lookupF : FS → String → Option (List ℕ)
  | [], _ => none
  | (n, c) :: rest, name => if n = name then some c else lookupF rest name

/-- `std::filesystem::exists`. -/
def existsF (fs : FS) (name : String) : Bool := (lookupF fs name).isSome

/-- `void load(const std::string& filename)`: throws `NotFound` when the
path does not exist, throws when `file_size < size()` (the spec's
`SizeMismatch`), otherwise `f.read((char*)bytes->data(), size())` reads
the first `size()` bytes of the file, in binary mode, into the array. -/
def memory.load (m : memory) (fs : FS) (name : String) : Except MemErr memory :=
  match lookupF fs name with
  | none => .error .notFound
  | some content =>
    if content.length < m.size then .error .sizeMismatch
    else .ok { m with bytes := content.take m.size }

/-- `memory(const std::string& filename)`: the array is value-initialized
(`new byte_array_t{}`, all zeros) and then `load(filename)` runs. -/
def memory.fromFile (B E : ℕ) (fs : FS) (name : String) : Except MemErr memory :=
  (memory.mk B E (List.replicate (E - B + 1) 0)).load fs name

/-- The byte span `[begin, end)` as raw data, used by `save`:
`f.write((char*)(bytes->data() + begin), save_size)` after
`begin -= BEGIN`. The C++ `write` is an unchecked raw-pointer read;
the model slices the array, which coincides with it whenever the span
lies inside the array (as in every claim exercising a valid span). -/
def savedSpan (m : memory) (b e : ℕ) : List ℕ :=
  (m.bytes.drop (w16 (b + W16 - m.BEGIN))).take (intToSize ((e : ℤ) - (b : ℤ)))

/-- `void save(const std::string& filename, address_t begin = BEGIN,
address_t end = END + 1) const`: computes `save_size = end - begin`
(`int`), `begin -= BEGIN` (`address_t`), throws the overflow error when
`save_size > size()`, then — only if the target path does not already
exist — writes the `save_size` bytes starting at `data() + begin` to a
new binary file; an existing path throws the `AlreadyExists` error
without touching the file. -/
def memory.save (m : memory) (fs : FS) (name : String) (b e : ℕ) :
    Except MemErr FS :=
  if intToSize ((e : ℤ) - (b : ℤ)) > m.size then .error .overflow
  else if existsF fs name then .error .alreadyExists
  else .ok ((name, savedSpan m b e) :: fs)

/-- **C5.** Constructing a block from a file fails with `NotFound` when
the path does not exist, fails with `SizeMismatch` when the file is
shorter than `size()`, and otherwise reads exactly the first `size()`
bytes of the file into storage (offset 0 = first byte; trailing bytes
ignored). -/
theorem fromFile_spec (B E : ℕ) (fs : FS) (name : String) (hBE : B ≤ E) :
    (lookupF fs name = none →
      memory.fromFile B E fs name = Except.error MemErr.notFound) ∧
    (∀ content, lookupF fs name = some content →
      (content.length < E - B + 1 →
        memory.fromFile B E fs name = Except.error MemErr.sizeMismatch) ∧
      (E - B + 1 ≤ content.length →
        memory.fromFile B E fs name =
          Except.ok (memory.mk B E (content.take (E - B + 1))))) := by
  constructor
  · intro hnone
    unfold memory.fromFile memory.load
    rw [hnone]
  · intro content hsome
    have hsz : (memory.mk B E (List.replicate (E - B + 1) 0)).size = E - B + 1 := rfl
    constructor
    · intro hshort
      unfold memory.fromFile memory.load
      rw [hsome]
      simp only [hsz]
      rw [if_pos hshort]
    · intro hlong
      unfold memory.fromFile memory.load
      rw [hsome]
      simp only [hsz]
      rw [if_neg (by omega)]

/-- Witness for C5: all three branches at concrete inputs. -/
theorem fromFile_spec_witness :
    memory.fromFile 0 2 [("rom.bin", [1, 2, 3, 4, 5])] "rom.bin" =
      Except.ok (memory.mk 0 2 [1, 2, 3]) ∧
    memory.fromFile 0 9 [("rom.bin", [1, 2, 3, 4, 5])] "rom.bin" =
      Except.error MemErr.sizeMismatch ∧
    memory.fromFile 0 2 [("rom.bin", [1, 2, 3, 4, 5])] "other.bin" =
      Except.error MemErr.notFound := by
  refine ⟨?_, ?_, ?_⟩
  · rw [((fromFile_spec 0 2 [("rom.bin", [1, 2, 3, 4, 5])] "rom.bin"
      (by decide)).2 [1, 2, 3, 4, 5] (by decide)).2 (by decide)]
    rfl
  · exact ((fromFile_spec 0 9 [("rom.bin", [1, 2, 3, 4, 5])] "rom.bin"
      (by decide)).2 [1, 2, 3, 4, 5] (by decide)).1 (by decide)
  · exact (fromFile_spec 0 2 [("rom.bin", [1, 2, 3, 4, 5])] "other.bin"
      (by decide)).1 (by decide)

/-- **C6.** For a valid span, `save` to an existing path fails with
`AlreadyExists` (the code throws before opening or writing anything, so
the existing file is untouched — in the model the filesystem is returned
unchanged only on success); with a fresh path it creates exactly one new
file holding precisely the bytes of the span `[begin, end)`, raw, with
no header: the saved list has length `end - begin` and its `j`-th byte
is the block's byte at address `begin + j`. -/
theorem save_spec (m : memory) (fs : FS) (name : String) (b e : ℕ)
    (hwf : m.wf) (h1 : m.BEGIN ≤ b) (hbe : b ≤ e) (h2 : e ≤ m.END + 1)
    (he : e < W16) :
    (existsF fs name = true →
      m.save fs name b e = Except.error MemErr.alreadyExists) ∧
    (existsF fs name = false →
      m.save fs name b e = Except.ok ((name, savedSpan m b e) :: fs) ∧
      (savedSpan m b e).length = e - b ∧
      ∀ j, j < e - b → m.read (b + j) = Except.ok ((savedSpan m b e).getD j 0)) := by
  obtain ⟨hbeW, hew, hlen, _⟩ := hwf
  have hsz : m.bytes.length = m.END - m.BEGIN + 1 := hlen
  have hss : intToSize ((e : ℤ) - (b : ℤ)) = e - b := by
    simp only [intToSize, W64]
    rw [Int.emod_eq_of_lt (by omega) (by simp only [W16] at *; omega)]
    omega
  have hb1 : w16 (b + W16 - m.BEGIN) = b - m.BEGIN := by
    simp only [w16, W16] at *
    omega
  have hchk : ¬ intToSize ((e : ℤ) - (b : ℤ)) > m.size := by
    rw [hss]
    simp only [memory.size]
    omega
  have hspan : savedSpan m b e = (m.bytes.drop (b - m.BEGIN)).take (e - b) := by
    unfold savedSpan
    rw [hss, hb1]
  have hsplen : (savedSpan m b e).length = e - b := by
    rw [hspan]
    simp only [List.length_take, List.length_drop]
    omega
  constructor
  · intro hex
    unfold memory.save
    rw [if_neg hchk, hex]
    rfl
  · intro hex
    refine ⟨?_, hsplen, ?_⟩
    · unfold memory.save
      rw [if_neg hchk, hex]
      rfl
    · intro j hj
      have hoff : szsub (b + j) m.BEGIN = (b + j) - m.BEGIN := by
        apply szsub_of_le (by omega)
        simp only [W16, W64] at *
        omega
      have hlt : (b + j) - m.BEGIN < m.bytes.length := by omega
      have hg : (savedSpan m b e).getD j 0 = m.bytes.getD ((b + j) - m.BEGIN) 0 := by
        rw [hspan, List.getD_eq_getElem?_getD, List.getD_eq_getElem?_getD]
        rw [List.getElem?_take, if_pos hj, List.getElem?_drop]
        have harith : b - m.BEGIN + j = b + j - m.BEGIN := by omega
        rw [harith]
      exact read_ok_of_getD hoff hlt hg.symm

/-- Witness for C6: the block `[0, 3] = [10, 20, 30, 40]`, span `[1, 3)`.
Saving over an existing `out.bin` fails with `AlreadyExists`; saving to a
fresh `new.bin` creates exactly the two span bytes. -/
theorem save_spec_witness :
    (memory.mk 0 3 [10, 20, 30, 40]).save [("out.bin", [9])] "out.bin" 1 3 =
      Except.error MemErr.alreadyExists ∧
    (memory.mk 0 3 [10, 20, 30, 40]).save [("out.bin", [9])] "new.bin" 1 3 =
      Except.ok (("new.bin", savedSpan (memory.mk 0 3 [10, 20, 30, 40]) 1 3) ::
        [("out.bin", [9])]) ∧
    (memory.mk 0 3 [10, 20, 30, 40]).read (1 + 0) =
      Except.ok ((savedSpan (memory.mk 0 3 [10, 20, 30, 40]) 1 3).getD 0 0) := by
  refine ⟨?_, ?_, ?_⟩
  · exact (save_spec (memory.mk 0 3 [10, 20, 30, 40]) [("out.bin", [9])] "out.bin" 1 3
      (by decide) (by decide) (by decide) (by decide) (by decide)).1 (by decide)
  · exact ((save_spec (memory.mk 0 3 [10, 20, 30, 40]) [("out.bin", [9])] "new.bin" 1 3
      (by decide) (by decide) (by decide) (by decide) (by decide)).2 (by decide)).1
  · exact ((save_spec (memory.mk 0 3 [10, 20, 30, 40]) [("out.bin", [9])] "new.bin" 1 3
      (by decide) (by decide) (by decide) (by decide) (by decide)).2 (by decide)).2.2 0 (by decide)

end FileOps

section Dump

/-- One uppercase hexadecimal digit as `std::format`'s `{:X}` emits it
(ASCII code of `0`–`9`, `A`–`F`). -/
def hexDigit (n : ℕ) : ℕ := if n < 10 then 48 + n else 55 + n

/-- `std::format("${:04X} ", addr)`'s digits for `addr < 2^16`: four
uppercase hex digits, zero padded. -/
def hex4 (n : ℕ) : List ℕ :=
  [hexDigit (n / 4096 % 16), hexDigit (n / 256 % 16), hexDigit (n / 16 % 16),
    hexDigit (n % 16)]

/-- `std::format("{:02X} ", b)`'s digits for a byte `b < 256`. -/
def hex2 (n : ℕ) : List ℕ := [hexDigit (n / 16 % 16), hexDigit (n % 16)]

/-- The ASCII column's output byte for a stored byte `b`: with `char c`
signed, `(c == ASCII_DEL) || (c >= ASCII_NULL) && (c < ASCII_SPACE)`
holds iff `b < 32 ∨ b = 127` (for `b ≥ 128`, `c` is negative and no
branch fires), printing `'.'` (46); otherwise the byte itself is
written. -/
def asciiByte (b : ℕ) : ℕ := if b < 32 ∨ b = 127 then 46 else b

/-- Reads the `cnt` bytes `bytes->at(base), …, bytes->at(base + cnt - 1)`
in order, failing exactly like `at` does at the first out-of-bounds
index. -/
def takeAt (bs : List ℕ) : (base cnt : ℕ) → Except MemErr (List ℕ)
  | _, 0 => .ok []
  | base, n + 1 =>
    if h : base < bs.length then
      (takeAt bs (base + 1) n).map (fun t => bs.get ⟨base, h⟩ :: t)
    else .error .outOfRange

/-- The bytes written by one row: `"${:04X} "` of the absolute address,
`column_count` times `"{:02X} "`, `"| "`, `column_count` ASCII-column
bytes, `" |\n"` (`36 = '$'`, `32 = ' '`, `124 = '|'`, `10 = '\n'`). -/
def renderParagraph (addr : ℕ) (data : List ℕ) : List ℕ :=
  36 :: hex4 addr ++ [32] ++ data.flatMap (fun b => hex2 b ++ [32]) ++
    [124, 32] ++ data.map asciiByte ++ [32, 124, 10]

/-- `void dump_paragraph(address_t addr) const`: prints the address
label, then `addr -= BEGIN` (wrapping as `address_t`), then the
`column_count` hex bytes and the ASCII column, each read through
`bytes->at((size_t)addr + i)`. -/
def memory.dump_paragraph (m : memory) (addr : ℕ) : Except MemErr (List ℕ) :=
  (takeAt m.bytes (w16 (addr + W16 - m.BEGIN)) m.column_count).map
    (renderParagraph addr)

/-- The loop of `dump`: `for (auto i{begin}; i < end; i += PARAGRAPH)`
with `i : address_t` wrapping modulo `2^16` on `i += 16`. The loop need
not terminate (when a row start at `0xFFF0`–`0xFFFF` wraps below `end`),
so it carries fuel; `none` models non-termination. -/
def dumpGo (m : memory) (e : ℕ) : (fuel i : ℕ) → Option (Except MemErr (List ℕ))
  | 0, _ => none
  | fuel + 1, i =>
    if i < e then
      match m.dump_paragraph i with
      | .error err => some (.error err)
      | .ok row =>
        match dumpGo m e fuel (w16 (i + 16)) with
        | none => none
        | some (.error err) => some (.error err)
        | some (.ok rest) => some (.ok (row ++ rest))
    else some (.ok [])

/-- Fuel bound for `dumpGo`: a 16-bit `end` needs at most `4096` steps
before either stopping or provably cycling, so `16384` steps decide
every claim instance. -/
def FUEL : ℕ := 16384

/-- `void dump(address_t begin = BEGIN, address_t end = END + 1) const`:
`dump_size = end - begin` (`int`) is checked against `size()` (throwing
the overflow error), then the paragraph loop runs. -/
def memory.dump (m : memory) (b e : ℕ) : Option (Except MemErr (List ℕ)) :=
  if intToSize ((e : ℤ) - (b : ℤ)) > m.size then some (.error .overflow)
  else dumpGo m e FUEL b

/-- The byte codes of an ASCII string, for writing expected dump output
literally. -/
def strBytes (s : String) : List ℕ := s.data.map Char.toNat

/-- The all-`0xFF` 16-byte block at `[0x1000, 0x100F]` of the C7
scenario. -/
def ffBlock : memory := memory.mk 4096 4111 (List.replicate 16 255)

/-- **C7, counterexample.** On the `BEGIN = 0x1000`, `END = 0x100F`
block holding `0xFF` everywhere, `dump()` (defaults: `begin = 0x1000`,
`end = 0x1010`) does *not* produce the claimed line with dots in the
ASCII column: `0xFF` is ≥ 128, so the signed-`char` printable test
replaces nothing and the raw `0xFF` byte is written instead of `'.'`. -/
theorem dump_ff_not_dots :
    ffBlock.dump 4096 4112 ≠
      some (Except.ok (strBytes
        "$1000 FF FF FF FF FF FF FF FF FF FF FF FF FF FF FF FF | ................ |\n")) := by
  decide

/-- **C7, amended.** `dump()` on the all-`0xFF` block produces exactly
one line whose hex columns are sixteen `FF` and whose ASCII column is
sixteen raw `0xFF` bytes (not `'.'`), between `"| "` and `" |"`. -/
theorem dump_ff_line :
    ffBlock.dump 4096 4112 =
      some (Except.ok (strBytes
        "$1000 FF FF FF FF FF FF FF FF FF FF FF FF FF FF FF FF | " ++
        List.replicate 16 255 ++ strBytes " |\n")) := by
  decide

end Dump

section RowFormat

/-- Spec-side hex digit: index into `"0123456789ABCDEF"` (uppercase). -/
def specHexDigit (d : ℕ) : Char := "0123456789ABCDEF".data.getD d 'X'

/-- Spec-side fixed-width uppercase hexadecimal rendering (most
significant digit first, zero padded). -/
def specHex (width n : ℕ) : List Char :=
  (List.range width).reverse.map (fun k => specHexDigit (n / 16 ^ k % 16))

/-- Spec-side ASCII column character: the byte's character with bytes
equal to 0–31 or 127 replaced by `'.'`. -/
def specChar (b : ℕ) : Char := if b ≤ 31 ∨ b = 127 then '.' else Char.ofNat b

/-- Spec-side dump row, following the spec's words: `"${AAAA} "` with
`AAAA` the 4-uppercase-hex-digit absolute address, then for each column
`"{BB} "` with `BB` 2 uppercase hex digits, then `"| "`, then for each
column the byte's character with bytes 0–31 and 127 replaced by `'.'`,
then `" |"` and a newline. -/
def specRow (addr : ℕ) (data : List ℕ) : List ℕ :=
  ('$' :: specHex 4 addr ++ [' '] ++
    data.flatMap (fun b => specHex 2 b ++ [' ']) ++
    ['|', ' '] ++ data.map specChar ++ [' ', '|', '\n']).map Char.toNat

/-- The bytes a row at address `a` renders: what `dump_paragraph` reads
through `bytes->at` (or `[]` when those reads throw). -/
def paraData (m : memory) (a : ℕ) : List ℕ :=
  match takeAt m.bytes (w16 (a + W16 - m.BEGIN)) m.column_count with
  | .ok l => l
  | .error _ => []

theorem hexDigit_eq : ∀ d : ℕ, d < 16 → hexDigit d = (specHexDigit d).toNat := by
  decide

set_option maxRecDepth 4096 in
theorem asciiByte_eq : ∀ b : ℕ, b < 256 → asciiByte b = (specChar b).toNat := by
  decide

set_option maxRecDepth 4096 in
theorem hex2_eq : ∀ b : ℕ, b < 256 → hex2 b = (specHex 2 b).map Char.toNat := by
  decide

theorem hex4_eq (a : ℕ) : hex4 a = (specHex 4 a).map Char.toNat := by
  have hr : specHex 4 a = [specHexDigit (a / 16 ^ 3 % 16), specHexDigit (a / 16 ^ 2 % 16),
      specHexDigit (a / 16 ^ 1 % 16), specHexDigit (a / 16 ^ 0 % 16)] := rfl
  rw [hr]
  simp only [List.map_cons, List.map_nil]
  unfold hex4
  rw [hexDigit_eq _ (Nat.mod_lt _ (by norm_num)),
      hexDigit_eq _ (Nat.mod_lt _ (by norm_num)),
      hexDigit_eq _ (Nat.mod_lt _ (by norm_num)),
      hexDigit_eq _ (Nat.mod_lt _ (by norm_num))]
  norm_num

theorem flat_hex_eq : ∀ (data : List ℕ), (∀ x ∈ data, x < 256) →
    data.flatMap (fun b => hex2 b ++ [32]) =
    (data.flatMap (fun b => specHex 2 b ++ [' '])).map Char.toNat := by
  intro data
  induction data with
  | nil => intro _; rfl
  | cons x t ih =>
    intro hd
    simp only [List.flatMap_cons, List.map_append]
    rw [← ih (fun y hy => hd y (List.mem_cons_of_mem _ hy))]
    congr 1
    rw [hex2_eq x (hd x (List.mem_cons_self _ _))]
    rfl

theorem map_ascii_eq : ∀ (data : List ℕ), (∀ x ∈ data, x < 256) →
    data.map asciiByte = (data.map specChar).map Char.toNat := by
  intro data
  induction data with
  | nil => intro _; rfl
  | cons x t ih =>
    intro hd
    simp only [List.map_cons]
    rw [← ih (fun y hy => hd y (List.mem_cons_of_mem _ hy)),
      asciiByte_eq x (hd x (List.mem_cons_self _ _))]

/-- The code's row rendering coincides with the spec's textual format for
byte data. -/
theorem render_eq_spec (a : ℕ) (data : List ℕ) (hdata : ∀ x ∈ data, x < 256) :
    renderParagraph a data = specRow a data := by
  unfold renderParagraph specRow
  simp only [List.map_append, List.map_cons, List.map_nil]
  rw [hex4_eq a, flat_hex_eq data hdata, map_ascii_eq data hdata]
  rfl

theorem takeAt_ok_length {bs : List ℕ} :
    ∀ {cnt base : ℕ} {l : List ℕ}, takeAt bs base cnt = .ok l → l.length = cnt := by
  intro cnt
  induction cnt with
  | zero =>
    intro base l h
    simp only [takeAt] at h
    cases h
    rfl
  | succ n ih =>
    intro base l h
    simp only [takeAt] at h
    split at h
    · cases h2 : takeAt bs (base + 1) n with
      | error err => rw [h2] at h; cases h
      | ok t =>
        rw [h2] at h
        cases h
        simp [ih h2]
    · cases h

theorem takeAt_mem {bs : List ℕ} :
    ∀ {cnt base : ℕ} {l : List ℕ}, takeAt bs base cnt = .ok l →
      ∀ x ∈ l, x ∈ bs := by
  intro cnt
  induction cnt with
  | zero =>
    intro base l h
    simp only [takeAt] at h
    cases h
    intro x hx
    cases hx
  | succ n ih =>
    intro base l h
    simp only [takeAt] at h
    split at h
    · cases h2 : takeAt bs (base + 1) n with
      | error err => rw [h2] at h; cases h
      | ok t =>
        rw [h2] at h
        cases h
        intro x hx
        rcases List.mem_cons.mp hx with hx | hx
        · subst hx
          exact List.get_mem _ _ _
        · exact ih h2 x hx
    · cases h

/-- `column_count` is `min(size, 16)`. -/
theorem column_count_min (m : memory) : m.column_count = min m.size 16 := by
  simp only [memory.column_count]
  split <;> omega

/-- **C8.** Every row `dump` emits (rows are produced only by
`dump_paragraph`) has the exact text form `"${AAAA} "`, then `"{BB} "`
per column, then `"| "`, then per column the byte's character with
bytes 0–31 and 127 replaced by `'.'`, then `" |"` and a newline, where
`AAAA` is the 4-uppercase-hex-digit absolute address and `BB` the
2-uppercase-hex-digit byte; the column count equals `min(size, 16)`,
fixed at construction, for every row. -/
theorem dump_row_format (m : memory) (a : ℕ) (hwf : m.wf)
    (r : List ℕ) (h : m.dump_paragraph a = Except.ok r) :
    r = specRow a (paraData m a) ∧ (paraData m a).length = min m.size 16 := by
  obtain ⟨hbe, hew, hlen, hbytes⟩ := hwf
  unfold memory.dump_paragraph at h
  cases h2 : takeAt m.bytes (w16 (a + W16 - m.BEGIN)) m.column_count with
  | error err =>
    rw [h2] at h
    cases h
  | ok data =>
    rw [h2] at h
    have hr : r = renderParagraph a data := by
      simp only [Except.map] at h
      cases h
      rfl
    have hpd : paraData m a = data := by
      unfold paraData
      rw [h2]
    rw [hpd, hr]
    refine ⟨?_, ?_⟩
    · exact render_eq_spec a data (fun x hx => hbytes x (takeAt_mem h2 x hx))
    · rw [takeAt_ok_length h2, column_count_min]

/-- Witness for C8: the 4-byte block `[0,3] = "ABC\0"` renders its single
paragraph as `$0000 41 42 43 00 | ABC. |` with 4 columns. -/
theorem dump_row_format_witness :
    strBytes "$0000 41 42 43 00 | ABC. |\n" =
      specRow 0 (paraData (memory.mk 0 3 [65, 66, 67, 0]) 0) ∧
    (paraData (memory.mk 0 3 [65, 66, 67, 0]) 0).length =
      min (memory.mk 0 3 [65, 66, 67, 0]).size 16 :=
  dump_row_format (memory.mk 0 3 [65, 66, 67, 0]) 0 (by decide)
    (strBytes "$0000 41 42 43 00 | ABC. |\n") (by decide)

end RowFormat

section DumpRows

/-- The output of the row at address `a` (empty when its reads throw). -/
def paraOut (m : memory) (a : ℕ) : List ℕ :=
  match m.dump_paragraph a with
  | .ok r => r
  | .error _ => []

/-- The row-start addresses of `dump(b, e)`: `⌈(e - b) / 16⌉` rows at
`b, b + 16, b + 32, …` (the loop steps `i += PARAGRAPH`). -/
def rowAddrs (b e : ℕ) : List ℕ :=
  (List.range ((e - b + 15) / 16)).map (fun k => b + 16 * k)

theorem rowAddrs_nil {b e : ℕ} (h : e ≤ b) : rowAddrs b e = [] := by
  unfold rowAddrs
  have : (e - b + 15) / 16 = 0 := by omega
  rw [this]
  rfl

theorem rowAddrs_cons {b e : ℕ} (h : b < e) :
    rowAddrs b e = b :: rowAddrs (b + 16) e := by
  unfold rowAddrs
  have hn : (e - b + 15) / 16 = (e - (b + 16) + 15) / 16 + 1 := by omega
  rw [hn, List.range_succ_eq_map]
  simp only [List.map_cons, List.map_map, Nat.mul_zero, Nat.add_zero]
  congr 1
  apply List.map_congr_left
  intro k _
  simp only [Function.comp_apply]
  omega

/-- `takeAt` can only fail with `OutOfRange`. -/
theorem takeAt_error {bs : List ℕ} :
    ∀ {cnt base : ℕ} {err : MemErr}, takeAt bs base cnt = .error err →
      err = .outOfRange := by
  intro cnt
  induction cnt with
  | zero =>
    intro base err h
    simp [takeAt] at h
  | succ n ih =>
    intro base err h
    simp only [takeAt] at h
    split at h
    · cases h2 : takeAt bs (base + 1) n with
      | error e2 =>
        rw [h2] at h
        cases h
        exact ih h2
      | ok t => rw [h2] at h; cases h
    · cases h
      rfl

/-- `dump_paragraph` can only fail with `OutOfRange`. -/
theorem dump_paragraph_error {m : memory} {a : ℕ} {err : MemErr}
    (h : m.dump_paragraph a = .error err) : err = .outOfRange := by
  unfold memory.dump_paragraph at h
  cases h2 : takeAt m.bytes (w16 (a + W16 - m.BEGIN)) m.column_count with
  | error e2 =>
    rw [h2] at h
    cases h
    exact takeAt_error h2
  | ok l => rw [h2] at h; cases h

/-- The dump loop can only fail with `OutOfRange`: once past the
size check, no `Overflow` is ever raised. -/
theorem dumpGo_error {m : memory} {e : ℕ} :
    ∀ {fuel i : ℕ} {err : MemErr},
      dumpGo m e fuel i = some (.error err) → err = .outOfRange := by
  intro fuel
  induction fuel with
  | zero =>
    intro i err h
    simp [dumpGo] at h
  | succ n ih =>
    intro i err h
    rw [dumpGo] at h
    split at h
    · cases hp : m.dump_paragraph i with
      | error e2 =>
        rw [hp] at h
        cases h
        exact dump_paragraph_error hp
      | ok row =>
        rw [hp] at h
        cases hr : dumpGo m e n (w16 (i + 16)) with
        | none => rw [hr] at h; cases h
        | some res =>
          cases res with
          | error e2 =>
            rw [hr] at h
            cases h
            exact ih hr
          | ok rest => rw [hr] at h; cases h
    · cases h

/-- The dump loop visits exactly the `rowAddrs`, provided the 16-bit
row-start arithmetic never wraps (`e ≤ 0xFFF0`) and the fuel covers the
span. -/
theorem dumpGo_rows (m : memory) (e : ℕ) (he : e ≤ 65520) :
    ∀ (fuel : ℕ) (b : ℕ), e - b + 16 ≤ 16 * fuel →
      (∀ a ∈ rowAddrs b e, (m.dump_paragraph a).isOk = true) →
      dumpGo m e fuel b = some (Except.ok ((rowAddrs b e).flatMap (paraOut m))) := by
  intro fuel
  induction fuel with
  | zero =>
    intro b hf
    omega
  | succ n ih =>
    intro b hf hrows
    by_cases hlt : b < e
    · have hmem : b ∈ rowAddrs b e := by
        rw [rowAddrs_cons hlt]
        exact List.mem_cons_self _ _
      have hok := hrows b hmem
      cases hp : m.dump_paragraph b with
      | error err =>
        rw [hp] at hok
        simp [Except.isOk, Except.toBool] at hok
      | ok row =>
        have hw : w16 (b + 16) = b + 16 := by
          simp only [w16, W16]
          omega
        have hrec := ih (b + 16) (by omega) (fun a ha => hrows a (by
          rw [rowAddrs_cons hlt]
          exact List.mem_cons_of_mem _ ha))
        rw [dumpGo, if_pos hlt, hp, hw, hrec]
        rw [rowAddrs_cons hlt]
        simp [paraOut, hp]
    · rw [dumpGo, if_neg hlt, rowAddrs_nil (by omega)]
      rfl

/-- **C9, counterexample.** Two blocks `[0, 31]` that agree on every
byte at addresses `< 20` (they differ only at address `25`) produce
*different* outputs for `dump(0, 20)`: the final row, covering the 4
remaining span bytes `16..19`, still renders 16 columns and therefore
reads and prints bytes at addresses `≥ 20`. -/
theorem dump_reads_past_end :
    ((List.range 20).all (fun a =>
      (memory.mk 0 31 (List.replicate 32 0)).read a ==
      (memory.mk 0 31 ((List.replicate 32 0).set 25 171)).read a)) = true ∧
    (memory.mk 0 31 (List.replicate 32 0)).dump 0 20 ≠
      (memory.mk 0 31 ((List.replicate 32 0).set 25 171)).dump 0 20 := by
  decide

/-- **C9, amended.** For a valid span with row arithmetic below the
16-bit wrap (`end ≤ 0xFFF0`) whose row reads all succeed, `dump(b, e)`
emits `⌈(e - b) / 16⌉` rows starting at `b, b + 16, b + 32, …` — rows
advance by the paragraph width 16 (equal to the column count whenever
the block holds at least 16 bytes) — and each row, including a final
partial one, is a full `dump_paragraph` of `column_count` bytes from its
row address, so when `e - b` is not a multiple of 16 the final row
renders bytes at or past address `e` (the counterexample shows the
output depends on them). -/
theorem dump_rows (m : memory) (b e : ℕ) (hbe : b ≤ e) (he : e ≤ 65520)
    (hspan : e - b ≤ m.size)
    (hrows : ∀ a ∈ rowAddrs b e, (m.dump_paragraph a).isOk = true) :
    m.dump b e = some (Except.ok ((rowAddrs b e).flatMap (paraOut m))) := by
  unfold memory.dump
  have hss : intToSize ((e : ℤ) - (b : ℤ)) = e - b := by
    simp only [intToSize, W64]
    rw [Int.emod_eq_of_lt (by omega) (by omega)]
    omega
  rw [if_neg (by rw [hss]; omega)]
  exact dumpGo_rows m e he FUEL b (by simp only [FUEL]; omega) hrows

/-- Witness for the amended C9: `dump(0, 20)` on the 32-byte zero block
is exactly the two rows at `0` and `16`. -/
theorem dump_rows_witness :
    (memory.mk 0 31 (List.replicate 32 0)).dump 0 20 =
      some (Except.ok ((rowAddrs 0 20).flatMap
        (paraOut (memory.mk 0 31 (List.replicate 32 0))))) :=
  dump_rows (memory.mk 0 31 (List.replicate 32 0)) 0 20
    (by decide) (by decide) (by decide) (by decide)

end DumpRows

section Overflow

/-- `fill` past its overflow check can only fail with `OutOfRange`. -/
theorem fill_not_overflow {m : memory} {v b e : ℕ}
    (h : m.fill v b e = Except.error MemErr.overflow) :
    intToSize ((w16 (e + W16 - b) : ℤ) - (w16 (b + W16 - m.BEGIN) : ℤ)) > m.size := by
  by_contra hc
  unfold memory.fill at h
  rw [if_neg hc] at h
  cases hl : fillLoop v (w16 (b + W16 - m.BEGIN))
      (w16 (e + W16 - b) - w16 (b + W16 - m.BEGIN)) (w16 (b + W16 - m.BEGIN)) m.bytes with
  | error err =>
    rw [hl] at h
    cases h
    cases fillLoop_error hl
  | ok bs => rw [hl] at h; cases h

/-- **C3.** Exact `Overflow` conditions of the three span operations, for
spans with `BEGIN ≤ begin ≤ end`: `dump` and `save` raise `Overflow`
exactly when the span length `end - begin` exceeds `size()`; `fill`,
however, checks its *mutated* locals — `(end - begin) - (begin - BEGIN)`
converted to `size_t` — so it raises `Overflow` exactly when the span
length minus the begin offset exceeds `size()` (or wraps negative),
not when the span length does. -/
theorem overflow_exactness (m : memory) (v b e : ℕ) (fs : FS) (name : String)
    (hwf : m.wf) (hb : m.BEGIN ≤ b) (hbe : b ≤ e) (he : e < W16) :
    (m.dump b e = some (Except.error MemErr.overflow) ↔ m.size < e - b) ∧
    (m.save fs name b e = Except.error MemErr.overflow ↔ m.size < e - b) ∧
    (m.fill v b e = Except.error MemErr.overflow ↔
      (e - b < b - m.BEGIN ∨ m.size < (e - b) - (b - m.BEGIN))) := by
  obtain ⟨hbeW, hew, hlen, _⟩ := hwf
  have hsz : m.size = m.END - m.BEGIN + 1 := rfl
  have hss : intToSize ((e : ℤ) - (b : ℤ)) = e - b := by
    simp only [intToSize, W64]
    rw [Int.emod_eq_of_lt (by omega) (by simp only [W16] at *; omega)]
    omega
  have he1 : w16 (e + W16 - b) = e - b := by
    simp only [w16, W16] at *
    omega
  have hb1 : w16 (b + W16 - m.BEGIN) = b - m.BEGIN := by
    simp only [w16, W16] at *
    omega
  have hkey : intToSize (((e - b : ℕ) : ℤ) - ((b - m.BEGIN : ℕ) : ℤ)) > m.size ↔
      (e - b < b - m.BEGIN ∨ m.size < (e - b) - (b - m.BEGIN)) := by
    simp only [intToSize, W64]
    rw [hsz]
    simp only [W16] at *
    omega
  refine ⟨?_, ?_, ?_⟩
  · constructor
    · intro h
      by_contra hc
      unfold memory.dump at h
      rw [if_neg (by rw [hss]; omega)] at h
      cases dumpGo_error h
    · intro h
      unfold memory.dump
      rw [if_pos (by rw [hss]; omega)]
  · constructor
    · intro h
      by_contra hc
      unfold memory.save at h
      rw [if_neg (by rw [hss]; omega)] at h
      split at h <;> cases h
    · intro h
      unfold memory.save
      rw [if_pos (by rw [hss]; omega)]
  · constructor
    · intro h
      have := fill_not_overflow h
      rw [he1, hb1] at this
      exact hkey.mp this
    · intro h
      unfold memory.fill
      rw [he1, hb1, if_pos (hkey.mpr h)]

set_option maxRecDepth 8192 in
/-- **C3, counterexample.** On the 256-byte block `[0, 255]`, the span
`[100, 150)` has length `50 ≤ size()`, yet `fill(1, 100, 150)` raises
`Overflow`: the check compares `(end - begin) - (begin - BEGIN) =
50 - 100`, which wraps negative and converts to a huge `size_t`. -/
theorem fill_overflow_cex :
    (memory.mk 0 255 (List.replicate 256 0)).wf ∧
    150 - 100 ≤ (memory.mk 0 255 (List.replicate 256 0)).size ∧
    (memory.mk 0 255 (List.replicate 256 0)).fill 1 100 150 =
      Except.error MemErr.overflow := by
  decide

set_option maxRecDepth 8192 in
/-- Witness for C3: concrete instances of all three prongs on the
256-byte block — an oversized `dump` span raises `Overflow`, an
oversized `save` span raises `Overflow`, and an in-size `fill` span with
a large begin offset raises `Overflow` by the corrected condition. -/
theorem overflow_exactness_witness :
    (memory.mk 0 255 (List.replicate 256 0)).dump 0 300 =
      some (Except.error MemErr.overflow) ∧
    (memory.mk 0 255 (List.replicate 256 0)).save [] "f.bin" 0 300 =
      Except.error MemErr.overflow ∧
    (memory.mk 0 255 (List.replicate 256 0)).fill 1 100 150 =
      Except.error MemErr.overflow := by
  have h := overflow_exactness (memory.mk 0 255 (List.replicate 256 0)) 1 0 300
    [] "f.bin" (by decide) (by decide) (by decide) (by decide)
  have h2 := overflow_exactness (memory.mk 0 255 (List.replicate 256 0)) 1 100 150
    [] "f.bin" (by decide) (by decide) (by decide) (by decide)
  exact ⟨h.1.mpr (by decide), h.2.1.mpr (by decide), h2.2.2.mpr (by decide)⟩

end Overflow

end Z80
